import Mathlib

/-!
Shallow embedding of the executor row model and column-resolution logic of
`components/tidb_query/src/executor/mod.rs`, together with theorems settling
the specification claims about it.

Bytes are modelled as `List Nat`; machine casts (`i64 as usize`) are made
explicit with `% 2 ^ 64`. Fallible code returns `Except ExecError`; a Rust
index panic is modelled by `Option` (`none` = panic).
-/

namespace Tikv

/-- Typed scalar value (the `Datum` type of the codec library). The executor
source treats it abstractly; we keep the constructors the claims exercise. -/
inductive Datum where
  | Null : Datum
  | I64 : Int → Datum
  | Bytes : List Nat → Datum
deriving DecidableEq, Repr

/-- Modelled from the spec: the scalar value codec is an external library
("the row-oriented low-level value codec ... is assumed as a library"; its
bit layout is an explicit non-goal), so we model a self-delimiting injective
single-datum encoding. -/
def encodeDatum : Datum → List Nat
  | .Null => [0]
  | .I64 v => [1, if v < 0 then 1 else 0, v.natAbs]
  | .Bytes bs => [3, bs.length] ++ bs

/-- Modelled from the spec: `datum::encode_value` / `write_datum` encode a
sequence of datums by concatenating the single-datum encodings. -/
def encodeValue (ds : List Datum) : List Nat :=
  (ds.map encodeDatum).flatten

/-- Modelled from the spec: decode one datum from the front of a byte stream,
returning the datum and the remaining bytes; `none` on malformed input. -/
def decodeDatum : List Nat → Option (Datum × List Nat)
  | 0 :: r => some (.Null, r)
  | 1 :: s :: m :: r => some (.I64 (if s = 1 then -(m : Int) else (m : Int)), r)
  | 3 :: n :: r => if n ≤ r.length then some (.Bytes (r.take n), r.drop n) else none
  | _ => none

theorem decodeDatum_encodeDatum (d : Datum) (r : List Nat) :
    decodeDatum (encodeDatum d ++ r) = some (d, r) := by
  cases d with
  | Null => rfl
  | I64 v =>
    by_cases h : v < 0
    · have hv : -|v| = v := by simp [abs_of_neg h]
      simp [encodeDatum, decodeDatum, if_pos h, hv]
    · have hv : ((v.natAbs : Int)) = v := by omega
      simp [encodeDatum, decodeDatum, if_neg h, hv]
  | Bytes bs =>
    simp only [encodeDatum, List.cons_append, List.append_assoc, decodeDatum,
      List.length_append]
    rw [if_pos (by omega)]
    simp [List.take_append_of_le_length, List.drop_append_of_le_length,
      List.take_length, List.drop_length]

/-- Structured rendering of the executor's `other_err!` / wrapped codec
errors; each constructor carries exactly the data the format string carries. -/
inductive ExecError where
  | missingColumn : Int → Int → ExecError        -- "column {id} of {handle} is missing"
  | offsetOverflow : Nat → Nat → ExecError       -- "offset {o} overflow, should be less than {n}"
  | decodeError : ExecError                      -- wrapped codec failure (box_try)
  | aggCannotTakeOrigin : ExecError              -- "aggregation columns cannot take origin"
deriving DecidableEq, Repr

instance {ε α : Type} [DecidableEq ε] [DecidableEq α] : DecidableEq (Except ε α) :=
  fun x y =>
    match x, y with
    | .error a, .error b =>
      if h : a = b then .isTrue (by rw [h]) else .isFalse (fun hh => by cases hh; exact h rfl)
    | .ok a, .ok b =>
      if h : a = b then .isTrue (by rw [h]) else .isFalse (fun hh => by cases hh; exact h rfl)
    | .error _, .ok _ => .isFalse (fun hh => by cases hh)
    | .ok _, .error _ => .isFalse (fun hh => by cases hh)

/-- `tipb::ColumnInfo` restricted to the fields the executor reads:
`get_column_id`, `get_pk_handle`, `has_default_val`/`get_default_val`,
and the NOT NULL field-type flag. -/
structure ColumnInfo where
  column_id : Int
  pk_handle : Bool
  default_val : Option (List Nat)
  not_null : Bool
deriving DecidableEq, Repr

/-- Association-list lookup backing `RowColsDict::get`. -/
def dictGet : List (Int × List Nat) → Int → Option (List Nat)
  | [], _ => none
  | (k, v) :: rest, id => if k = id then some v else dictGet rest id

/-- `RowColsDict`: the sparse column-id → raw-bytes map read from storage. -/
structure RowColsDict where
  value : List (Int × List Nat)
deriving DecidableEq, Repr

def RowColsDict.get (d : RowColsDict) (id : Int) : Option (List Nat) :=
  dictGet d.value id

/-- Modelled from the spec: `util::get_pk` synthesizes the handle column's
value from the row handle. -/
def get_pk (_col : ColumnInfo) (handle : Int) : Datum :=
  .I64 handle

/-- Evaluation context; `inflate_cols_with_offsets` threads it to the codec. -/
def EvalContext : Type := Unit

/-- Modelled from the spec: `table::decode_col_value` decodes a column's raw
bytes into a typed value, failing on malformed bytes.  -/
def decode_col_value (_ctx : EvalContext) (_col : ColumnInfo) (bs : List Nat) :
    Except ExecError Datum :=
  match decodeDatum bs with
  | some (d, _) => .ok d
  | none => .error .decodeError

/-- `OriginCols`: a scanned-table row (handle, sparse data, declared columns). -/
structure OriginCols where
  handle : Int
  data : RowColsDict
  cols : List ColumnInfo
deriving DecidableEq, Repr

def OriginCols.new (handle : Int) (data : RowColsDict) (cols : List ColumnInfo) :
    OriginCols :=
  ⟨handle, data, cols⟩

/-- Loop body of `OriginCols::get_binary_cols` (lines 150-170): resolve one
declared column to its encoded bytes. The `pk_handle` check comes first;
then the stored entry, the default, the NOT NULL error, and NULL. -/
def col_binary (o : OriginCols) (col : ColumnInfo) : Except ExecError (List Nat) :=
  if col.pk_handle then .ok (encodeValue [get_pk col o.handle])
  else
    match o.data.get col.column_id with
    | none =>
      match col.default_val with
      | some dv => .ok dv
      | none =>
        if col.not_null then .error (.missingColumn col.column_id o.handle)
        else .ok (encodeValue [Datum.Null])
    | some bs => .ok bs

/-- The `for col in self.cols` loop of `get_binary_cols`, pushing one encoded
value per declared column and aborting at the first error. -/
def get_binary_cols_go (o : OriginCols) : List ColumnInfo → Except ExecError (List (List Nat))
  | [] => .ok []
  | col :: rest =>
    match col_binary o col with
    | .error e => .error e
    | .ok v =>
      match get_binary_cols_go o rest with
      | .error e => .error e
      | .ok l => .ok (v :: l)

/-- `OriginCols::get_binary_cols`: binary of each column in declared order. -/
def OriginCols.get_binary_cols (o : OriginCols) : Except ExecError (List (List Nat)) :=
  get_binary_cols_go o o.cols

/-- The `for offset in output_offsets` loop of `OriginCols::get_binary`.
`self.cols[*offset as usize]` is an unchecked index: `none` models the panic.
Unlike `get_binary_cols`, the stored data entry is matched BEFORE the
`pk_handle` check (lines 181-199). -/
def get_binary_value (o : OriginCols) (col : ColumnInfo) : Except ExecError (List Nat) :=
  match o.data.get col.column_id with
  | some value => .ok value
  | none =>
    if col.pk_handle then .ok (encodeValue [get_pk col o.handle])
    else
      match col.default_val with
      | some dv => .ok dv
      | none =>
        if col.not_null then .error (.missingColumn col.column_id o.handle)
        else .ok (encodeValue [Datum.Null])

def get_binary_go (o : OriginCols) : List Nat → Option (Except ExecError (List Nat))
  | [] => some (.ok [])
  | off :: rest =>
    match o.cols[off]? with
    | none => none
    | some col =>
      match get_binary_value o col with
      | .error e => some (.error e)
      | .ok v =>
        match get_binary_go o rest with
        | none => none
        | some (.error e) => some (.error e)
        | some (.ok tail) => some (.ok (v ++ tail))

/-- `OriginCols::get_binary`: concatenated encoded values in requested-offset
order (offsets are `u32` in the source; we keep them as `Nat`). -/
def OriginCols.get_binary (o : OriginCols) (output_offsets : List Nat) :
    Option (Except ExecError (List Nat)) :=
  get_binary_go o output_offsets

/-- The `for offset in offsets` loop of `inflate_cols_with_offsets`, carrying
the dense result vector. `self.cols[*offset]` is an unchecked index (`none`
models the panic); `res[*offset] = v` is `List.set`. -/
def inflate_value (ctx : EvalContext) (o : OriginCols) (col : ColumnInfo) :
    Except ExecError Datum :=
  match o.data.get col.column_id with
  | none =>
    match col.default_val with
    | some dv => decode_col_value ctx col dv
    | none =>
      if col.not_null then .error (.missingColumn col.column_id o.handle)
      else .ok Datum.Null
  | some bs => decode_col_value ctx col bs

def inflate_go (ctx : EvalContext) (o : OriginCols) :
    List Nat → List Datum → Option (Except ExecError (List Datum))
  | [], res => some (.ok res)
  | off :: rest, res =>
    match o.cols[off]? with
    | none => none
    | some col =>
      if col.pk_handle then
        inflate_go ctx o rest (res.set off (get_pk col o.handle))
      else
        match inflate_value ctx o col with
        | .error e => some (.error e)
        | .ok v => inflate_go ctx o rest (res.set off v)

/-- `OriginCols::inflate_cols_with_offsets`: dense typed row, NULL at
unrequested offsets, five-step resolution at requested ones. -/
def OriginCols.inflate_cols_with_offsets (o : OriginCols) (ctx : EvalContext)
    (offsets : List Nat) : Option (Except ExecError (List Datum)) :=
  inflate_go ctx o offsets (List.replicate o.cols.length Datum.Null)

/-- `AggCols`: a computed aggregation-output row. -/
structure AggCols where
  suffix : List Nat
  value : List Datum
deriving DecidableEq, Repr

/-- `AggCols::get_binary`: encode `value` in its own order, then append
`suffix` when non-empty. -/
def AggCols.get_binary (a : AggCols) : Except ExecError (List Nat) :=
  let v := encodeValue a.value
  .ok (if a.suffix.isEmpty then v else v ++ a.suffix)

/-- `Row`: tagged union of the two row representations. -/
inductive Row where
  | Origin : OriginCols → Row
  | Agg : AggCols → Row
deriving DecidableEq, Repr

def Row.origin (handle : Int) (data : RowColsDict) (cols : List ColumnInfo) : Row :=
  .Origin (OriginCols.new handle data cols)

def Row.agg (value : List Datum) (suffix : List Nat) : Row :=
  .Agg ⟨suffix, value⟩

/-- `Row::take_origin`: downcast to `OriginCols`, failing on an agg row. -/
def Row.take_origin : Row → Except ExecError OriginCols
  | .Origin row => .ok row
  | .Agg _ => .error .aggCannotTakeOrigin

/-- `Row::get_binary`: dispatch on the variant; the aggregation arm ignores
`output_offsets`. -/
def Row.get_binary : Row → List Nat → Option (Except ExecError (List Nat))
  | .Origin row, output_offsets => row.get_binary output_offsets
  | .Agg row, _ => some row.get_binary

/-- `tipb::ExprType`, restricted to `ColumnRef` plus representative
non-reference node kinds (a literal and a function node). -/
inductive ExprType where
  | ColumnRef : ExprType
  | Uint64 : ExprType
  | ScalarFunc : ExprType
  | NullKind : ExprType
deriving DecidableEq, Repr

/-- `tipb::Expr`: a node kind, opaque value bytes, and child expressions. -/
inductive Expr where
  | mk : ExprType → List Nat → List Expr → Expr

def Expr.get_tp : Expr → ExprType
  | .mk tp _ _ => tp

def Expr.get_val : Expr → List Nat
  | .mk _ val _ => val

def Expr.get_children : Expr → List Expr
  | .mk _ _ children => children

/-- Big-endian accumulation of a byte list into a natural number. -/
def bytesToNatBE (bs : List Nat) : Nat :=
  bs.foldl (fun a b => a * 256 + b % 256) 0

/-- Modelled from the spec: `NumberDecoder::read_i64` reads a signed 64-bit
integer (8 bytes, big-endian, two's complement) from the front of the value
bytes, failing when fewer than 8 bytes are available. -/
def read_i64 (bs : List Nat) : Except ExecError Int :=
  if 8 ≤ bs.length then
    let n := bytesToNatBE (bs.take 8)
    .ok (if n < 2 ^ 63 then (n : Int) else (n : Int) - 2 ^ 64)
  else .error .decodeError

/-- Modelled from the spec: `NumberEncoder::write_i64`, the encoder matching
`read_i64` (8 big-endian bytes of the value's 64-bit two's complement). -/
def write_i64 (i : Int) : List Nat :=
  let m := (i % 2 ^ 64).toNat
  [m / 256 ^ 7 % 256, m / 256 ^ 6 % 256, m / 256 ^ 5 % 256, m / 256 ^ 4 % 256,
   m / 256 ^ 3 % 256, m / 256 ^ 2 % 256, m / 256 % 256, m % 256]

/-- `ExprColumnRefVisitor`: set of discovered offsets plus the declared
column count. The `HashSet` is modelled as a duplicate-free list. -/
structure ExprColumnRefVisitor where
  cols_offset : List Nat
  cols_len : Nat
deriving DecidableEq, Repr

def ExprColumnRefVisitor.new (cols_len : Nat) : ExprColumnRefVisitor :=
  ⟨[], cols_len⟩

/-- `HashSet::insert`: add the offset unless already present. -/
def insertOffset (l : List Nat) (x : Nat) : List Nat :=
  if x ∈ l then l else l ++ [x]

mutual

/-- `ExprColumnRefVisitor::visit`: on a `ColumnRef` node, read the embedded
i64, cast it to `usize` (`% 2 ^ 64` made explicit), range-check it against
`cols_len` and record it; otherwise recurse into the children. -/
def ExprColumnRefVisitor.visit (s : ExprColumnRefVisitor) (e : Expr) :
    Except ExecError ExprColumnRefVisitor :=
  match e with
  | .mk tp val children =>
    if tp = ExprType.ColumnRef then
      match read_i64 val with
      | .error err => .error err
      | .ok i =>
        let offset := (i % 2 ^ 64).toNat
        if s.cols_len ≤ offset then .error (.offsetOverflow offset s.cols_len)
        else .ok ⟨insertOffset s.cols_offset offset, s.cols_len⟩
    else ExprColumnRefVisitor.batch_visit s children
termination_by sizeOf e

/-- `ExprColumnRefVisitor::batch_visit`: visit each expression in order,
aborting at the first error. -/
def ExprColumnRefVisitor.batch_visit (s : ExprColumnRefVisitor) (es : List Expr) :
    Except ExecError ExprColumnRefVisitor :=
  match es with
  | [] => .ok s
  | e :: rest =>
    match ExprColumnRefVisitor.visit s e with
    | .error err => .error err
    | .ok s2 => ExprColumnRefVisitor.batch_visit s2 rest
termination_by sizeOf es

end

def ExprColumnRefVisitor.column_offsets (s : ExprColumnRefVisitor) : List Nat :=
  s.cols_offset

mutual

/-- Offsets of the column-reference leaves of an expression tree, in visit
order (decoded exactly as `visit` decodes them); reference characterization
used to state what the recursion discovers. -/
def collectRefs (e : Expr) : List Nat :=
  match e with
  | .mk tp val children =>
    if tp = ExprType.ColumnRef then
      match read_i64 val with
      | .ok i => [(i % 2 ^ 64).toNat]
      | .error _ => []
    else collectRefsList children
termination_by sizeOf e

def collectRefsList (es : List Expr) : List Nat :=
  match es with
  | [] => []
  | e :: rest => collectRefs e ++ collectRefsList rest
termination_by sizeOf es

end

/-- Modelled from the spec: the summary collector's `on_finish_iterate`
records one completed count per finished `next()` call (the concrete
`ExecSummaryCollector` lives outside the embedded source). The collector
state is the ordered list of recorded counts. -/
def on_finish_iterate (collector : List Nat) (rows : Nat) : List Nat :=
  collector ++ [rows]

/-- `WithSummaryCollector`: the decorator, with the wrapped operator modelled
as a deterministic script of pending `next()` results (an exhausted script
keeps yielding `Ok(None)`). -/
structure WithSummaryCollector where
  summary_collector : List Nat
  inner : List (Except ExecError (Option Row))

/-- `next()` of the modelled wrapped operator: pop the next scripted result,
end-of-stream once the script is exhausted. -/
def mockNext (script : List (Except ExecError (Option Row))) :
    Except ExecError (Option Row) × List (Except ExecError (Option Row)) :=
  match script with
  | [] => (.ok none, [])
  | r :: rest => (r, rest)

/-- The count recorded for one result: `if let Ok(Some(_)) = ret { 1 } else { 0 }`. -/
def eventCount (ret : Except ExecError (Option Row)) : Nat :=
  match ret with
  | .ok (some _) => 1
  | _ => 0

/-- `WithSummaryCollector::next` (lines 280-289): delegate to the wrapped
operator, record a completed event with count 1 on `Ok(Some)` and count 0
otherwise (end-of-stream AND error), return the inner result unchanged. -/
def WithSummaryCollector.next (w : WithSummaryCollector) :
    Except ExecError (Option Row) × WithSummaryCollector :=
  let ret := (mockNext w.inner).1
  (ret, ⟨on_finish_iterate w.summary_collector (eventCount ret), (mockNext w.inner).2⟩)

/-- Iterate `next` `k` times, keeping only the decorator state. -/
def runAll (w : WithSummaryCollector) : Nat → WithSummaryCollector
  | 0 => w
  | k + 1 => runAll w.next.2 k

theorem mem_insertOffset (l : List Nat) (x y : Nat) :
    y ∈ insertOffset l x ↔ y ∈ l ∨ y = x := by
  unfold insertOffset
  by_cases h : x ∈ l
  · simp only [if_pos h]
    constructor
    · exact fun hy => Or.inl hy
    · rintro (hy | rfl)
      · exact hy
      · exact h
  · simp [if_neg h]

theorem nodup_insertOffset (l : List Nat) (x : Nat) (h : l.Nodup) :
    (insertOffset l x).Nodup := by
  unfold insertOffset
  by_cases hx : x ∈ l
  · simpa [if_pos hx]
  · simp only [if_neg hx]
    simpa [List.nodup_append] using ⟨h, fun hmem => hx hmem⟩

theorem bytesToNatBE_write_i64 (i : Int) :
    bytesToNatBE (write_i64 i) = (i % 2 ^ 64).toNat := by
  have h0 : (0 : Int) < 2 ^ 64 := by norm_num
  have h1 : i % 2 ^ 64 < 2 ^ 64 := Int.emod_lt_of_pos i h0
  have h2 : 0 ≤ i % 2 ^ 64 := Int.emod_nonneg i (by norm_num)
  have h3 : (i % 2 ^ 64).toNat < 2 ^ 64 := by omega
  simp only [bytesToNatBE, write_i64, List.foldl]
  norm_num
  omega

/-- Reading back 8 written bytes yields an i64 congruent to the written value
modulo `2 ^ 64`; in particular the `as usize` cast recovers the written
value's low 64 bits. -/
theorem read_write_i64 (i : Int) :
    ∃ j : Int, read_i64 (write_i64 i) = .ok j ∧
      (j % 2 ^ 64).toNat = (i % 2 ^ 64).toNat := by
  have hlen : (write_i64 i).length = 8 := rfl
  have htake : (write_i64 i).take 8 = write_i64 i := by
    rw [← hlen]
    exact List.take_length _
  have hm : bytesToNatBE (write_i64 i) = (i % 2 ^ 64).toNat := bytesToNatBE_write_i64 i
  have h1 : i % 2 ^ 64 < 2 ^ 64 := Int.emod_lt_of_pos i (by norm_num)
  have h2 : 0 ≤ i % 2 ^ 64 := Int.emod_nonneg i (by norm_num)
  have hn : (i % 2 ^ 64).toNat < 2 ^ 64 := by omega
  unfold read_i64
  rw [if_pos (by rw [hlen]), htake, hm]
  set n := (i % 2 ^ 64).toNat with hdefn
  by_cases hlt : n < 2 ^ 63
  · exact ⟨(n : Int), by simp [hlt]; omega, by omega⟩
  · exact ⟨(n : Int) - 2 ^ 64, by simp [hlt]; omega, by omega⟩

/-- Joint characterization of `visit` and `batch_visit` on success: the
declared column count is unchanged, the offset set stays duplicate-free, and
the final set holds exactly the initial offsets plus the decoded offsets of
the column-reference leaves of the visited tree(s). -/
theorem visit_spec_aux :
    (∀ (s : ExprColumnRefVisitor) (e : Expr), ∀ s' : ExprColumnRefVisitor,
        s.visit e = .ok s' →
        s'.cols_len = s.cols_len ∧
        (s.cols_offset.Nodup → s'.cols_offset.Nodup) ∧
        (∀ x, x ∈ s'.cols_offset ↔ x ∈ s.cols_offset ∨ x ∈ collectRefs e)) ∧
    (∀ (s : ExprColumnRefVisitor) (es : List Expr), ∀ s' : ExprColumnRefVisitor,
        s.batch_visit es = .ok s' →
        s'.cols_len = s.cols_len ∧
        (s.cols_offset.Nodup → s'.cols_offset.Nodup) ∧
        (∀ x, x ∈ s'.cols_offset ↔ x ∈ s.cols_offset ∨ x ∈ collectRefsList es)) := by
  apply ExprColumnRefVisitor.visit.mutual_induct
  · intro s a a_1 err hread s' hv
    simp [ExprColumnRefVisitor.visit, hread] at hv
  · intro s a a_1 i hread offset hle s' hv
    simp only [ExprColumnRefVisitor.visit, if_pos rfl, hread, if_pos hle] at hv
    simp at hv
  · intro s a a_1 i hread offset hle s' hv
    simp only [ExprColumnRefVisitor.visit, if_pos rfl, hread, if_neg hle] at hv
    obtain rfl : (⟨insertOffset s.cols_offset offset, s.cols_len⟩ :
        ExprColumnRefVisitor) = s' := by
      exact congrArg (fun r => match r with | .ok v => v | .error _ => s) hv
    refine ⟨rfl, fun hnd => nodup_insertOffset _ _ hnd, fun x => ?_⟩
    simp only [collectRefs, if_pos rfl, ite_true, hread, List.mem_singleton]
    exact mem_insertOffset s.cols_offset offset x
  · intro s tp a a_1 htp ih s' hv
    have hv2 : s.batch_visit a_1 = .ok s' := by
      simpa [ExprColumnRefVisitor.visit, if_neg htp] using hv
    obtain ⟨hlen, hnd, hmem⟩ := ih s' hv2
    exact ⟨hlen, hnd, fun x => by simpa [collectRefs, if_neg htp] using hmem x⟩
  · intro s s' hv
    obtain rfl : s = s' := by
      simpa [ExprColumnRefVisitor.batch_visit] using hv
    simp [collectRefsList]
  · intro s e rest err hvis ih s' hv
    simp [ExprColumnRefVisitor.batch_visit, hvis] at hv
  · intro s e rest s2 hvis ih1 ih2 s' hv
    have hv2 : s2.batch_visit rest = .ok s' := by
      simpa [ExprColumnRefVisitor.batch_visit, hvis] using hv
    obtain ⟨hlen1, hnd1, hmem1⟩ := ih1 s2 hvis
    obtain ⟨hlen2, hnd2, hmem2⟩ := ih2 s' hv2
    refine ⟨hlen2.trans hlen1, fun hnd => hnd2 (hnd1 hnd), fun x => ?_⟩
    simp only [collectRefsList, List.mem_append]
    rw [hmem2 x]
    rw [hmem1 x]
    tauto

/-- A concrete column-reference node carrying the encoded offset bytes. -/
def colRefExpr (offsetBytes : List Nat) : Expr :=
  .mk ExprType.ColumnRef offsetBytes []

theorem encodeValue_single (d : Datum) : encodeValue [d] = encodeDatum d := by
  simp [encodeValue]

theorem decodeDatum_encodeValue_single (d : Datum) :
    decodeDatum (encodeValue [d]) = some (d, []) := by
  have h := decodeDatum_encodeDatum d []
  rw [List.append_nil] at h
  rw [encodeValue_single]
  exact h

/-- A successful `get_binary_cols` loop returns one entry per declared
column, each the value its loop body resolves for that column. -/
theorem get_binary_cols_go_ok (o : OriginCols) (cs : List ColumnInfo)
    (l : List (List Nat)) (h : get_binary_cols_go o cs = .ok l) :
    l.length = cs.length ∧
    ∀ (i : Nat) (ci : ColumnInfo), cs[i]? = some ci →
      ∃ li, l[i]? = some li ∧ col_binary o ci = .ok li := by
  induction cs generalizing l with
  | nil =>
    simp only [get_binary_cols_go] at h
    injection h with h2
    subst h2
    refine ⟨rfl, ?_⟩
    intro i ci hci
    simp at hci
  | cons c rest ih =>
    simp only [get_binary_cols_go] at h
    cases hc : col_binary o c with
    | error e => simp [hc] at h
    | ok v =>
      simp only [hc] at h
      cases hr : get_binary_cols_go o rest with
      | error e => simp [hr] at h
      | ok l' =>
        simp only [hr] at h
        injection h with h2
        subst h2
        obtain ⟨hlen, hent⟩ := ih l' hr
        refine ⟨by simp [hlen], ?_⟩
        intro i ci hci
        cases i with
        | zero =>
          simp only [List.getElem?_cons_zero, Option.some.injEq] at hci
          subst hci
          exact ⟨v, by simp, hc⟩
        | succ k =>
          simp only [List.getElem?_cons_succ] at hci
          obtain ⟨li, hli, hcb⟩ := hent k ci hci
          exact ⟨li, by simpa [List.getElem?_cons_succ] using hli, hcb⟩

/-- If any declared column's loop body fails, the whole `get_binary_cols`
loop fails (with the first failing column's error). -/
theorem get_binary_cols_go_error (o : OriginCols) (cs : List ColumnInfo)
    (i : Nat) (ci : ColumnInfo) (e : ExecError) (hci : cs[i]? = some ci)
    (hc : col_binary o ci = .error e) :
    ∃ e', get_binary_cols_go o cs = .error e' := by
  induction cs generalizing i with
  | nil => simp at hci
  | cons c rest ih =>
    cases i with
    | zero =>
      simp only [List.getElem?_cons_zero, Option.some.injEq] at hci
      subst hci
      exact ⟨e, by simp [get_binary_cols_go, hc]⟩
    | succ k =>
      simp only [List.getElem?_cons_succ] at hci
      cases hcb : col_binary o c with
      | error e0 => exact ⟨e0, by simp [get_binary_cols_go, hcb]⟩
      | ok v =>
        obtain ⟨e', hrest⟩ := ih k hci
        exact ⟨e', by simp [get_binary_cols_go, hcb, hrest]⟩

/-- When the first failing column of the `get_binary_cols` loop is column
`i`, the loop's error is column `i`'s error. -/
theorem get_binary_cols_go_first_error (o : OriginCols) (cs : List ColumnInfo)
    (i : Nat) (ci : ColumnInfo) (e : ExecError) (hci : cs[i]? = some ci)
    (hc : col_binary o ci = .error e)
    (hfirst : ∀ j, j < i → ∀ cj, cs[j]? = some cj →
      ∃ v, col_binary o cj = .ok v) :
    get_binary_cols_go o cs = .error e := by
  induction cs generalizing i with
  | nil => simp at hci
  | cons c rest ih =>
    cases i with
    | zero =>
      simp only [List.getElem?_cons_zero, Option.some.injEq] at hci
      subst hci
      simp [get_binary_cols_go, hc]
    | succ k =>
      simp only [List.getElem?_cons_succ] at hci
      obtain ⟨v, hv⟩ := hfirst 0 (Nat.succ_pos k) c (by simp)
      have hrest : get_binary_cols_go o rest = .error e := by
        apply ih k hci
        intro j hj cj hcj
        exact hfirst (j + 1) (Nat.succ_lt_succ hj) cj
          (by simpa [List.getElem?_cons_succ] using hcj)
      simp [get_binary_cols_go, hv, hrest]

/-- A successful inflate loop preserves the result vector's length and
leaves every position outside the offset list untouched. -/
theorem inflate_go_ok (ctx : EvalContext) (o : OriginCols) (offs : List Nat)
    (res v : List Datum) (h : inflate_go ctx o offs res = some (.ok v)) :
    v.length = res.length ∧ ∀ j, j ∉ offs → v[j]? = res[j]? := by
  induction offs generalizing res with
  | nil =>
    simp only [inflate_go, Option.some.injEq] at h
    injection h with h2
    subst h2
    exact ⟨rfl, fun j _ => rfl⟩
  | cons off rest ih =>
    simp only [inflate_go] at h
    cases hcol : o.cols[off]? with
    | none => simp [hcol] at h
    | some col =>
      simp only [hcol] at h
      have step : ∀ d : Datum,
          inflate_go ctx o rest (res.set off d) = some (.ok v) →
          v.length = res.length ∧ ∀ j, j ∉ off :: rest → v[j]? = res[j]? := by
        intro d hrec
        obtain ⟨hlen, hget⟩ := ih _ hrec
        refine ⟨by simpa using hlen, ?_⟩
        intro j hj
        have hj1 : j ∉ rest := fun hh => hj (List.mem_cons_of_mem _ hh)
        have hj2 : off ≠ j := fun hh => hj (hh ▸ List.mem_cons_self _ _)
        rw [hget j hj1, List.getElem?_set_ne hj2]
      by_cases hpk : col.pk_handle
      · rw [if_pos hpk] at h
        exact step _ h
      · rw [if_neg hpk] at h
        cases hval : inflate_value ctx o col with
        | error e => simp [hval] at h
        | ok d =>
          simp only [hval] at h
          exact step d h

/-- On a successful inflate, a requested offset holding a handle column ends
up holding the synthesized handle value (regardless of duplicates). -/
theorem inflate_go_pk_mem (ctx : EvalContext) (o : OriginCols) (offs : List Nat)
    (res v : List Datum) (i : Nat) (col : ColumnInfo)
    (hcol : o.cols[i]? = some col) (hpk : col.pk_handle = true)
    (hlen : res.length = o.cols.length)
    (h : inflate_go ctx o offs res = some (.ok v))
    (hstart : i ∈ offs ∨ res[i]? = some (get_pk col o.handle)) :
    v[i]? = some (get_pk col o.handle) := by
  have hi : i < o.cols.length := (List.getElem?_eq_some.mp hcol).1
  induction offs generalizing res with
  | nil =>
    simp only [inflate_go, Option.some.injEq] at h
    injection h with h2
    subst h2
    rcases hstart with hmem | hres
    · simp at hmem
    · exact hres
  | cons off rest ih =>
    simp only [inflate_go] at h
    cases hcoff : o.cols[off]? with
    | none => simp [hcoff] at h
    | some c =>
      simp only [hcoff] at h
      have hlen2 : ∀ d : Datum, (res.set off d).length = o.cols.length := by
        intro d; simpa using hlen
      by_cases hcpk : c.pk_handle
      · rw [if_pos hcpk] at h
        rcases hstart with hmem | hres
        · rcases List.mem_cons.mp hmem with rfl | hmem2
          · have hcc : c = col := by
              rw [hcol] at hcoff
              injection hcoff with hh
              exact hh.symm
            subst hcc
            refine ih _ (hlen2 _) h (Or.inr ?_)
            rw [List.getElem?_set_self (by omega)]
          · exact ih _ (hlen2 _) h (Or.inl hmem2)
        · by_cases hoi : off = i
          · subst hoi
            have hcc : c = col := by
              rw [hcol] at hcoff
              injection hcoff with hh
              exact hh.symm
            subst hcc
            refine ih _ (hlen2 _) h (Or.inr ?_)
            rw [List.getElem?_set_self (by omega)]
          · refine ih _ (hlen2 _) h (Or.inr ?_)
            rw [List.getElem?_set_ne hoi]
            exact hres
      · rw [if_neg hcpk] at h
        have hoi : off ≠ i := by
          intro hh
          subst hh
          rw [hcol] at hcoff
          injection hcoff with hh2
          subst hh2
          rw [hpk] at hcpk
          exact hcpk rfl
        cases hval : inflate_value ctx o c with
        | error e => simp [hval] at h
        | ok d =>
          simp only [hval] at h
          rcases hstart with hmem | hres
          · rcases List.mem_cons.mp hmem with rfl | hmem2
            · exact absurd rfl hoi
            · exact ih _ (hlen2 _) h (Or.inl hmem2)
          · refine ih _ (hlen2 _) h (Or.inr ?_)
            rw [List.getElem?_set_ne hoi]
            exact hres

/-- `get_binary` on a single requested offset resolves exactly that offset's
loop-body value. -/
theorem get_binary_single (o : OriginCols) (i : Nat) (col : ColumnInfo)
    (hcol : o.cols[i]? = some col) :
    o.get_binary [i] = some (get_binary_value o col) := by
  unfold OriginCols.get_binary
  simp only [get_binary_go, hcol]
  cases hv : get_binary_value o col with
  | error e => rfl
  | ok v => simp [get_binary_go]

/-- `inflate_cols_with_offsets` on a single requested handle-column offset. -/
theorem inflate_single_pk (ctx : EvalContext) (o : OriginCols) (i : Nat)
    (col : ColumnInfo) (hcol : o.cols[i]? = some col)
    (hpk : col.pk_handle = true) :
    o.inflate_cols_with_offsets ctx [i] =
      some (.ok ((List.replicate o.cols.length Datum.Null).set i
        (get_pk col o.handle))) := by
  unfold OriginCols.inflate_cols_with_offsets
  simp [inflate_go, hcol, hpk]

/-- `inflate_cols_with_offsets` on a single requested non-handle offset. -/
theorem inflate_single_npk (ctx : EvalContext) (o : OriginCols) (i : Nat)
    (col : ColumnInfo) (hcol : o.cols[i]? = some col)
    (hpk : col.pk_handle = false) :
    o.inflate_cols_with_offsets ctx [i] =
      some (match inflate_value ctx o col with
        | .error e => .error e
        | .ok d => .ok ((List.replicate o.cols.length Datum.Null).set i d)) := by
  unfold OriginCols.inflate_cols_with_offsets
  simp only [inflate_go, hcol, hpk, Bool.false_eq_true, if_false]
  cases hval : inflate_value ctx o col with
  | error e => rfl
  | ok d => simp [inflate_go]

/-- Whether a scripted result is a produced row (`Ok(Some(_))`). -/
def isRowResult (r : Except ExecError (Option Row)) : Bool :=
  match r with
  | .ok (some _) => true
  | _ => false

theorem runAll_add (w : WithSummaryCollector) (m n : Nat) :
    runAll w (m + n) = runAll (runAll w m) n := by
  induction m generalizing w with
  | zero => simp [runAll]
  | succ k ih =>
    have hmn : k + 1 + n = (k + n) + 1 := by omega
    rw [hmn]
    simp only [runAll]
    exact ih _

theorem runAll_script (script : List (Except ExecError (Option Row))) (acc : List Nat) :
    runAll ⟨acc, script⟩ script.length =
      ⟨acc ++ script.map eventCount, []⟩ := by
  induction script generalizing acc with
  | nil => simp [runAll]
  | cons r rest ih =>
    simp only [List.length_cons, runAll, WithSummaryCollector.next, mockNext,
      on_finish_iterate, List.map_cons]
    rw [ih]
    simp

theorem sum_eventCount (script : List (Except ExecError (Option Row))) :
    (script.map eventCount).sum = script.countP isRowResult := by
  induction script with
  | nil => rfl
  | cons r rest ih =>
    cases r with
    | error e => simp [eventCount, isRowResult, List.countP_cons, ih]
    | ok o =>
      cases o with
      | none => simp [eventCount, isRowResult, List.countP_cons, ih]
      | some row =>
        simp [eventCount, isRowResult, List.countP_cons, ih]
        omega

/-- C5: `ExprColumnRefVisitor.visit` on a column-reference node whose decoded
offset is `≥ cols_len` fails with the overflow error, and with an offset
`< cols_len` succeeds and records that offset; a successful `visit`
(recursing through non-reference nodes) or `batch_visit` ends with exactly
the initial offsets plus the decoded offsets of all column-reference leaves,
with duplicates collapsed (the offset set stays duplicate-free). -/
theorem c5_visitor_range_and_collection (s : ExprColumnRefVisitor) (m : Nat)
    (hm : m < 2 ^ 64) :
    (s.cols_len ≤ m →
        s.visit (colRefExpr (write_i64 (m : Int))) =
          .error (.offsetOverflow m s.cols_len)) ∧
    (m < s.cols_len →
        ∃ s' : ExprColumnRefVisitor,
          s.visit (colRefExpr (write_i64 (m : Int))) = .ok s' ∧
            m ∈ s'.cols_offset) ∧
    (∀ (s₀ : ExprColumnRefVisitor) (e : Expr) (s' : ExprColumnRefVisitor),
        s₀.visit e = .ok s' →
        (s₀.cols_offset.Nodup → s'.cols_offset.Nodup) ∧
        (∀ x, x ∈ s'.cols_offset ↔ x ∈ s₀.cols_offset ∨ x ∈ collectRefs e)) ∧
    (∀ (s₀ : ExprColumnRefVisitor) (es : List Expr) (s' : ExprColumnRefVisitor),
        s₀.batch_visit es = .ok s' →
        (∀ x, x ∈ s'.cols_offset ↔ x ∈ s₀.cols_offset ∨ x ∈ collectRefsList es)) := by
  obtain ⟨j, hj, hcast⟩ := read_write_i64 (m : Int)
  have hmm : (((m : Int)) % 2 ^ 64).toNat = m := by omega
  have hoff : (j % 2 ^ 64).toNat = m := hcast.trans hmm
  refine ⟨?_, ?_, ?_, ?_⟩
  · intro hle
    simp only [colRefExpr, ExprColumnRefVisitor.visit, if_pos rfl, ite_true, hj, hoff]
    rw [if_pos hle]
  · intro hlt
    refine ⟨⟨insertOffset s.cols_offset m, s.cols_len⟩, ?_, ?_⟩
    · simp only [colRefExpr, ExprColumnRefVisitor.visit, if_pos rfl, ite_true, hj, hoff]
      rw [if_neg (not_le.mpr hlt)]
    · exact (mem_insertOffset _ _ _).mpr (Or.inr rfl)
  · intro s₀ e s' hv
    obtain ⟨_, hnd, hmem⟩ := visit_spec_aux.1 s₀ e s' hv
    exact ⟨hnd, hmem⟩
  · intro s₀ es s' hv
    exact (visit_spec_aux.2 s₀ es s' hv).2.2

theorem c5_witness :
    2 < 2 ^ 64 ∧
    (((ExprColumnRefVisitor.new 2).cols_len ≤ 2 →
        (ExprColumnRefVisitor.new 2).visit (colRefExpr (write_i64 (2 : Int))) =
          .error (.offsetOverflow 2 (ExprColumnRefVisitor.new 2).cols_len)) ∧
      (2 < (ExprColumnRefVisitor.new 2).cols_len →
        ∃ s' : ExprColumnRefVisitor,
          (ExprColumnRefVisitor.new 2).visit (colRefExpr (write_i64 (2 : Int))) =
              .ok s' ∧ 2 ∈ s'.cols_offset) ∧
      (∀ (s₀ : ExprColumnRefVisitor) (e : Expr) (s' : ExprColumnRefVisitor),
          s₀.visit e = .ok s' →
          (s₀.cols_offset.Nodup → s'.cols_offset.Nodup) ∧
          (∀ x, x ∈ s'.cols_offset ↔ x ∈ s₀.cols_offset ∨ x ∈ collectRefs e)) ∧
      (∀ (s₀ : ExprColumnRefVisitor) (es : List Expr) (s' : ExprColumnRefVisitor),
          s₀.batch_visit es = .ok s' →
          (∀ x, x ∈ s'.cols_offset ↔ x ∈ s₀.cols_offset ∨ x ∈ collectRefsList es))) :=
  ⟨by norm_num,
    c5_visitor_range_and_collection (ExprColumnRefVisitor.new 2) 2 (by norm_num)⟩

/-- C10: the decoded offset of a column-reference node is cast to an
unsigned 64-bit word before the range check, so any negative embedded i64
becomes a value `≥ 2 ^ 63` and is rejected with the overflow error whenever
`cols_len ≤ 2 ^ 63`. -/
theorem c10_negative_offset_rejected (s : ExprColumnRefVisitor) (i : Int)
    (hlo : -(2 ^ 63) ≤ i) (hneg : i < 0) (hn : s.cols_len ≤ 2 ^ 63) :
    s.visit (colRefExpr (write_i64 i)) =
      .error (.offsetOverflow (i + 2 ^ 64).toNat s.cols_len) ∧
    2 ^ 63 ≤ (i + 2 ^ 64).toNat := by
  obtain ⟨j, hj, hcast⟩ := read_write_i64 i
  have hmod : i % 2 ^ 64 = i + 2 ^ 64 := by omega
  have hoff : (j % 2 ^ 64).toNat = (i + 2 ^ 64).toNat := by rw [hcast, hmod]
  have hge : 2 ^ 63 ≤ (i + 2 ^ 64).toNat := by omega
  constructor
  · simp only [colRefExpr, ExprColumnRefVisitor.visit, if_pos rfl, ite_true, hj, hoff]
    rw [if_pos (le_trans hn hge)]
  · exact hge

theorem c10_witness :
    -(2 ^ 63) ≤ (-1 : Int) ∧ (-1 : Int) < 0 ∧
      (ExprColumnRefVisitor.new 4).cols_len ≤ 2 ^ 63 ∧
      ((ExprColumnRefVisitor.new 4).visit (colRefExpr (write_i64 (-1))) =
          .error (.offsetOverflow ((-1 : Int) + 2 ^ 64).toNat
            (ExprColumnRefVisitor.new 4).cols_len) ∧
        2 ^ 63 ≤ ((-1 : Int) + 2 ^ 64).toNat) :=
  ⟨by norm_num, by norm_num, by norm_num [ExprColumnRefVisitor.new],
    c10_negative_offset_rejected (ExprColumnRefVisitor.new 4) (-1)
      (by norm_num) (by norm_num) (by norm_num [ExprColumnRefVisitor.new])⟩

/-- C6: an aggregation row's binary is its value sequence encoded in its own
order with the suffix appended verbatim, identical for every
`output_offsets` argument. -/
theorem c6_agg_binary_ignores_offsets (a : AggCols) (offs offs2 : List Nat) :
    Row.get_binary (.Agg a) offs = some (.ok (encodeValue a.value ++ a.suffix)) ∧
    Row.get_binary (.Agg a) offs = Row.get_binary (.Agg a) offs2 := by
  refine ⟨?_, rfl⟩
  obtain ⟨sfx, val⟩ := a
  cases sfx with
  | nil => simp [Row.get_binary, AggCols.get_binary]
  | cons b bs => simp [Row.get_binary, AggCols.get_binary]

/-- C7: `take_origin` returns the contained `OriginCols` for every origin row
and fails with the dedicated error for every aggregation row. -/
theorem c7_take_origin_dispatch (o : OriginCols) (a : AggCols) :
    Row.take_origin (.Origin o) = .ok o ∧
    Row.take_origin (.Agg a) = .error .aggCannotTakeOrigin :=
  ⟨rfl, rfl⟩

/-- C8 (amended): `WithSummaryCollector::next` returns exactly the wrapped
operator's result; it records one completed event per call — count 1 for
`Ok(Some)`, count 0 for end-of-stream AND for an upstream error (the error
still propagates unchanged); after full exhaustion the recorded counts are
the per-call counts followed by a terminal 0, and their sum equals the
number of non-empty results. -/
theorem c8_summary_decorator (script : List (Except ExecError (Option Row)))
    (acc : List Nat) :
    (WithSummaryCollector.next ⟨acc, script⟩).1 = (mockNext script).1 ∧
    (WithSummaryCollector.next ⟨acc, script⟩).2.summary_collector =
      on_finish_iterate acc (eventCount (mockNext script).1) ∧
    (runAll ⟨acc, script⟩ (script.length + 1)).summary_collector =
      acc ++ script.map eventCount ++ [0] ∧
    (script.map eventCount).sum = script.countP isRowResult := by
  refine ⟨rfl, rfl, ?_, sum_eventCount script⟩
  rw [runAll_add ⟨acc, script⟩ script.length 1, runAll_script]
  simp [runAll, WithSummaryCollector.next, mockNext, on_finish_iterate, eventCount]

/-- C8 counterexample to the claim as stated: an upstream failure IS recorded
as a completed (timed) event with count 0 — the collector's record grows on
the failing call, while the error itself propagates unchanged. -/
theorem c8_error_event_recorded :
    (WithSummaryCollector.next ⟨[], [.error .decodeError]⟩).1 =
        .error .decodeError ∧
      (WithSummaryCollector.next ⟨[], [.error .decodeError]⟩).2.summary_collector
        = [0] ∧
      (WithSummaryCollector.next ⟨[], [.error .decodeError]⟩).2.summary_collector
        ≠ [] := by
  refine ⟨rfl, rfl, ?_⟩
  decide

theorem get_binary_go_isSome (o : OriginCols) (offs : List Nat)
    (h : ∀ x ∈ offs, x < o.cols.length) : (get_binary_go o offs).isSome := by
  induction offs with
  | nil => simp [get_binary_go]
  | cons off rest ih =>
    have hoff : off < o.cols.length := h off (List.mem_cons_self _ _)
    simp only [get_binary_go, List.getElem?_eq_getElem hoff]
    cases hv : get_binary_value o o.cols[off] with
    | error e => simp
    | ok v =>
      have hrest := ih (fun x hx => h x (List.mem_cons_of_mem _ hx))
      cases hr : get_binary_go o rest with
      | none => rw [hr] at hrest; simp at hrest
      | some r => cases r <;> simp

theorem inflate_go_isSome (ctx : EvalContext) (o : OriginCols) (offs : List Nat)
    (res : List Datum) (h : ∀ x ∈ offs, x < o.cols.length) :
    (inflate_go ctx o offs res).isSome := by
  induction offs generalizing res with
  | nil => simp [inflate_go]
  | cons off rest ih =>
    have hoff : off < o.cols.length := h off (List.mem_cons_self _ _)
    simp only [inflate_go, List.getElem?_eq_getElem hoff]
    by_cases hpk : (o.cols[off]).pk_handle
    · rw [if_pos hpk]
      exact ih _ (fun x hx => h x (List.mem_cons_of_mem _ hx))
    · rw [if_neg hpk]
      cases hv : inflate_value ctx o o.cols[off] with
      | error e => simp
      | ok d => exact ih _ (fun x hx => h x (List.mem_cons_of_mem _ hx))

/-- C9: `get_binary` and `inflate_cols_with_offsets` index the declared
columns by each supplied offset without a bounds check — with every offset
strictly below the declared column count neither panics (no out-of-bounds
access), while an offset equal to the column count panics immediately. -/
theorem c9_unchecked_indexing (ctx : EvalContext) (o : OriginCols) :
    (∀ offsets : List Nat, (∀ x ∈ offsets, x < o.cols.length) →
        (o.get_binary offsets).isSome ∧
        (o.inflate_cols_with_offsets ctx offsets).isSome) ∧
    o.get_binary [o.cols.length] = none ∧
    o.inflate_cols_with_offsets ctx [o.cols.length] = none := by
  refine ⟨fun offsets h =>
    ⟨get_binary_go_isSome o offsets h, inflate_go_isSome ctx o offsets _ h⟩, ?_, ?_⟩
  · unfold OriginCols.get_binary
    simp [get_binary_go, List.getElem?_eq_none_iff.mpr (le_refl _)]
  · unfold OriginCols.inflate_cols_with_offsets
    simp [inflate_go, List.getElem?_eq_none_iff.mpr (le_refl _)]

theorem c9_witness :
    (∀ x ∈ [0], x < (OriginCols.new 1 ⟨[]⟩ [⟨2, false, none, false⟩]).cols.length) ∧
    ((OriginCols.new 1 ⟨[]⟩ [⟨2, false, none, false⟩]).get_binary [0]).isSome ∧
    ((OriginCols.new 1 ⟨[]⟩
      [⟨2, false, none, false⟩]).inflate_cols_with_offsets () [0]).isSome ∧
    (OriginCols.new 1 ⟨[]⟩ [⟨2, false, none, false⟩]).get_binary [1] = none := by
  have h := c9_unchecked_indexing () (OriginCols.new 1 ⟨[]⟩ [⟨2, false, none, false⟩])
  have hx : ∀ x ∈ [0],
      x < (OriginCols.new 1 ⟨[]⟩ [⟨2, false, none, false⟩]).cols.length := by decide
  exact ⟨hx, (h.1 [0] hx).1, (h.1 [0] hx).2, h.2.1⟩

/-- C4: with all offsets in range, a successful inflation has length equal to
the declared column count and NULL at every unrequested offset; with an empty
offset list it returns all-NULL of that length. -/
theorem c4_inflate_shape (ctx : EvalContext) (o : OriginCols) (offsets : List Nat)
    (hoff : ∀ x ∈ offsets, x < o.cols.length) :
    (∀ v, o.inflate_cols_with_offsets ctx offsets = some (.ok v) →
        v.length = o.cols.length ∧
        ∀ j, j < o.cols.length → j ∉ offsets → v[j]? = some Datum.Null) ∧
    o.inflate_cols_with_offsets ctx [] =
      some (.ok (List.replicate o.cols.length Datum.Null)) := by
  constructor
  · intro v hv
    obtain ⟨hlen, hget⟩ := inflate_go_ok ctx o offsets _ v hv
    refine ⟨by simpa using hlen, ?_⟩
    intro j hj hnotin
    rw [hget j hnotin, List.getElem?_replicate_of_lt hj]
  · rfl

theorem c4_witness :
    (∀ x ∈ [0], x < (OriginCols.new 1 ⟨[]⟩ [⟨2, false, none, false⟩]).cols.length) ∧
    (∀ v, (OriginCols.new 1 ⟨[]⟩
          [⟨2, false, none, false⟩]).inflate_cols_with_offsets () [0] =
          some (.ok v) →
        v.length = (OriginCols.new 1 ⟨[]⟩ [⟨2, false, none, false⟩]).cols.length ∧
        ∀ j, j < (OriginCols.new 1 ⟨[]⟩ [⟨2, false, none, false⟩]).cols.length →
          j ∉ [0] → v[j]? = some Datum.Null) ∧
    (OriginCols.new 1 ⟨[]⟩ [⟨2, false, none, false⟩]).inflate_cols_with_offsets () [] =
      some (.ok (List.replicate
        (OriginCols.new 1 ⟨[]⟩ [⟨2, false, none, false⟩]).cols.length Datum.Null)) := by
  have hx : ∀ x ∈ [0],
      x < (OriginCols.new 1 ⟨[]⟩ [⟨2, false, none, false⟩]).cols.length := by decide
  have h := c4_inflate_shape () (OriginCols.new 1 ⟨[]⟩ [⟨2, false, none, false⟩]) [0] hx
  exact ⟨hx, h.1, h.2⟩

/-- C3: a requested non-handle column absent from the data map, with no
default and flagged NOT NULL, makes all three resolution paths fail with the
missing-column error carrying that column's id and the row's handle
(`get_binary_cols` reports it when it is the first failing column). -/
theorem c3_missing_not_null (ctx : EvalContext) (o : OriginCols) (i : Nat)
    (col : ColumnInfo) (hcol : o.cols[i]? = some col)
    (hnpk : col.pk_handle = false) (hmiss : o.data.get col.column_id = none)
    (hnodef : col.default_val = none) (hnn : col.not_null = true)
    (hfirst : ∀ j, j < i → ∀ cj, o.cols[j]? = some cj →
      ∃ v, col_binary o cj = .ok v) :
    o.get_binary [i] = some (.error (.missingColumn col.column_id o.handle)) ∧
    o.inflate_cols_with_offsets ctx [i] =
      some (.error (.missingColumn col.column_id o.handle)) ∧
    o.get_binary_cols = .error (.missingColumn col.column_id o.handle) := by
  have hgbv : get_binary_value o col =
      .error (.missingColumn col.column_id o.handle) := by
    simp [get_binary_value, hmiss, hnpk, hnodef, hnn]
  have hiv : inflate_value ctx o col =
      .error (.missingColumn col.column_id o.handle) := by
    simp [inflate_value, hmiss, hnodef, hnn]
  have hcb : col_binary o col =
      .error (.missingColumn col.column_id o.handle) := by
    simp [col_binary, hnpk, hmiss, hnodef, hnn]
  refine ⟨?_, ?_, ?_⟩
  · rw [get_binary_single o i col hcol, hgbv]
  · rw [inflate_single_npk ctx o i col hcol hnpk, hiv]
  · exact get_binary_cols_go_first_error o o.cols i col _ hcol hcb hfirst

theorem c3_witness :
    (OriginCols.new 7 ⟨[]⟩ [⟨3, false, none, true⟩]).cols[0]? =
        some ⟨3, false, none, true⟩ ∧
    (OriginCols.new 7 ⟨[]⟩ [⟨3, false, none, true⟩]).get_binary [0] =
      some (.error (.missingColumn 3 7)) ∧
    (OriginCols.new 7 ⟨[]⟩ [⟨3, false, none, true⟩]).inflate_cols_with_offsets () [0] =
      some (.error (.missingColumn 3 7)) ∧
    (OriginCols.new 7 ⟨[]⟩ [⟨3, false, none, true⟩]).get_binary_cols =
      .error (.missingColumn 3 7) := by
  have h := c3_missing_not_null () (OriginCols.new 7 ⟨[]⟩ [⟨3, false, none, true⟩]) 0
    ⟨3, false, none, true⟩ rfl rfl rfl rfl rfl
    (fun j hj => absurd hj (Nat.not_lt_zero j))
  exact ⟨rfl, h.1, h.2.1, h.2.2⟩

/-- C2 (amended): `get_binary_cols` and `inflate_cols_with_offsets` check the
handle flag first and synthesize the handle column's value from `handle`
even when `data` holds an entry for its column id; `get_binary`, however,
consults the data map first — it synthesizes from `handle` only when the
column id is absent from `data`, and returns the stored bytes otherwise. -/
theorem c2_handle_synthesis (ctx : EvalContext) (o : OriginCols) (i : Nat)
    (col : ColumnInfo) (hcol : o.cols[i]? = some col)
    (hpk : col.pk_handle = true) :
    (∀ l, o.get_binary_cols = .ok l →
        l[i]? = some (encodeValue [get_pk col o.handle])) ∧
    (∀ (offsets : List Nat) (v : List Datum),
        o.inflate_cols_with_offsets ctx offsets = some (.ok v) → i ∈ offsets →
        v[i]? = some (get_pk col o.handle)) ∧
    (o.data.get col.column_id = none →
        o.get_binary [i] = some (.ok (encodeValue [get_pk col o.handle]))) ∧
    (∀ bs, o.data.get col.column_id = some bs →
        o.get_binary [i] = some (.ok bs)) := by
  refine ⟨?_, ?_, ?_, ?_⟩
  · intro l hl
    obtain ⟨hlen, hent⟩ := get_binary_cols_go_ok o o.cols l hl
    obtain ⟨li, hli, hcb⟩ := hent i col hcol
    have hc : col_binary o col = .ok (encodeValue [get_pk col o.handle]) := by
      simp [col_binary, hpk]
    rw [hc] at hcb
    injection hcb with h2
    rw [hli, ← h2]
  · intro offsets v hv hmem
    exact inflate_go_pk_mem ctx o offsets _ v i col hcol hpk (by simp) hv
      (Or.inl hmem)
  · intro hmiss
    rw [get_binary_single o i col hcol]
    simp [get_binary_value, hmiss, hpk]
  · intro bs hbs
    rw [get_binary_single o i col hcol]
    simp [get_binary_value, hbs]

/-- C2 counterexample to the claim as stated: in `get_binary` the data-map
entry is matched before the handle check, so a handle column whose id is
present in `data` yields the stored bytes, not the handle synthesis. -/
theorem c2_data_entry_beats_handle :
    (OriginCols.new 5 ⟨[(1, [7, 7])]⟩ [⟨1, true, none, false⟩]).get_binary [0] =
        some (.ok [7, 7]) ∧
    encodeValue [get_pk ⟨1, true, none, false⟩ 5] = [1, 0, 5] ∧
    ([7, 7] : List Nat) ≠ [1, 0, 5] := by
  exact ⟨rfl, rfl, by decide⟩

theorem c2_witness :
    (OriginCols.new 5 ⟨[]⟩ [⟨1, true, none, false⟩]).cols[0]? =
        some ⟨1, true, none, false⟩ ∧
    (⟨1, true, none, false⟩ : ColumnInfo).pk_handle = true ∧
    (OriginCols.new 5 ⟨[]⟩ [⟨1, true, none, false⟩]).get_binary [0] =
      some (.ok (encodeValue [get_pk ⟨1, true, none, false⟩
        (OriginCols.new 5 ⟨[]⟩ [⟨1, true, none, false⟩]).handle])) := by
  refine ⟨rfl, rfl, ?_⟩
  exact (c2_handle_synthesis () (OriginCols.new 5 ⟨[]⟩ [⟨1, true, none, false⟩]) 0
    ⟨1, true, none, false⟩ rfl rfl).2.2.1 rfl

/-- C1 (amended): for a column whose handle flag, if set, has no entry in
`data` under its id, and whose stored/default bytes (when present) decode as
a datum, the three resolution paths are value-equivalent: the declared-order
binary entry equals the offset-order binary, the typed inflation holds
exactly the datum those bytes decode to, and a resolution error is the same
on the offset-order and typed paths (with `get_binary_cols` failing too). -/
theorem c1_resolution_equivalence (ctx : EvalContext) (o : OriginCols) (i : Nat)
    (col : ColumnInfo) (hcol : o.cols[i]? = some col)
    (hpkd : col.pk_handle = true → o.data.get col.column_id = none)
    (hstored : ∀ bs, o.data.get col.column_id = some bs →
      ∃ d r, decodeDatum bs = some (d, r))
    (hdef : ∀ bs, col.default_val = some bs →
      ∃ d r, decodeDatum bs = some (d, r)) :
    (∀ l, o.get_binary_cols = .ok l →
        ∃ bs, l[i]? = some bs ∧ o.get_binary [i] = some (.ok bs)) ∧
    (∀ bs, o.get_binary [i] = some (.ok bs) →
        ∃ v d r, o.inflate_cols_with_offsets ctx [i] = some (.ok v) ∧
          v[i]? = some d ∧ decodeDatum bs = some (d, r)) ∧
    (∀ e, o.get_binary [i] = some (.error e) →
        o.inflate_cols_with_offsets ctx [i] = some (.error e) ∧
        ∃ e', o.get_binary_cols = .error e') := by
  have hi : i < o.cols.length := (List.getElem?_eq_some.mp hcol).1
  have hrep : ∀ d : Datum,
      ((List.replicate o.cols.length Datum.Null).set i d)[i]? = some d := by
    intro d
    rw [List.getElem?_set_self (by simpa using hi)]
  have main : ∀ (bsv : List Nat) (d : Datum) (r : List Nat),
      get_binary_value o col = .ok bsv →
      col_binary o col = .ok bsv →
      o.inflate_cols_with_offsets ctx [i] =
        some (.ok ((List.replicate o.cols.length Datum.Null).set i d)) →
      decodeDatum bsv = some (d, r) →
      (∀ l, o.get_binary_cols = .ok l →
          ∃ bs, l[i]? = some bs ∧ o.get_binary [i] = some (.ok bs)) ∧
      (∀ bs, o.get_binary [i] = some (.ok bs) →
          ∃ v d2 r2, o.inflate_cols_with_offsets ctx [i] = some (.ok v) ∧
            v[i]? = some d2 ∧ decodeDatum bs = some (d2, r2)) ∧
      (∀ e, o.get_binary [i] = some (.error e) →
          o.inflate_cols_with_offsets ctx [i] = some (.error e) ∧
          ∃ e', o.get_binary_cols = .error e') := by
    intro bsv d r hgbv hcb hinf hdec
    have hgb : o.get_binary [i] = some (.ok bsv) := by
      rw [get_binary_single o i col hcol, hgbv]
    refine ⟨?_, ?_, ?_⟩
    · intro l hl
      obtain ⟨hlen, hent⟩ := get_binary_cols_go_ok o o.cols l hl
      obtain ⟨li, hli, hcbok⟩ := hent i col hcol
      rw [hcb] at hcbok
      injection hcbok with h2
      exact ⟨li, hli, by rw [hgb, h2]⟩
    · intro bs hbs
      rw [hgb] at hbs
      injection hbs with h2
      injection h2 with h3
      subst h3
      exact ⟨_, d, r, hinf, hrep d, hdec⟩
    · intro e he
      rw [hgb] at he
      injection he with h2
      simp at h2
  cases hpkb : col.pk_handle with
  | true =>
    apply main (encodeValue [get_pk col o.handle]) (get_pk col o.handle) []
    · simp [get_binary_value, hpkd hpkb, hpkb]
    · simp [col_binary, hpkb]
    · exact inflate_single_pk ctx o i col hcol hpkb
    · exact decodeDatum_encodeValue_single _
  | false =>
    cases hdata : o.data.get col.column_id with
    | some bs0 =>
      obtain ⟨d, r, hdec⟩ := hstored bs0 hdata
      apply main bs0 d r
      · simp [get_binary_value, hdata]
      · simp [col_binary, hpkb, hdata]
      · rw [inflate_single_npk ctx o i col hcol hpkb]
        have hiv : inflate_value ctx o col = .ok d := by
          simp [inflate_value, hdata, decode_col_value, hdec]
        rw [hiv]
      · exact hdec
    | none =>
      cases hdv : col.default_val with
      | some dbs =>
        obtain ⟨d, r, hdec⟩ := hdef dbs hdv
        apply main dbs d r
        · simp [get_binary_value, hdata, hpkb, hdv]
        · simp [col_binary, hpkb, hdata, hdv]
        · rw [inflate_single_npk ctx o i col hcol hpkb]
          have hiv : inflate_value ctx o col = .ok d := by
            simp [inflate_value, hdata, hdv, decode_col_value, hdec]
          rw [hiv]
        · exact hdec
      | none =>
        cases hnn : col.not_null with
        | false =>
          apply main (encodeValue [Datum.Null]) Datum.Null []
          · simp [get_binary_value, hdata, hpkb, hdv, hnn]
          · simp [col_binary, hpkb, hdata, hdv, hnn]
          · rw [inflate_single_npk ctx o i col hcol hpkb]
            have hiv : inflate_value ctx o col = .ok Datum.Null := by
              simp [inflate_value, hdata, hdv, hnn]
            rw [hiv]
          · exact decodeDatum_encodeValue_single _
        | true =>
          have hgbv : get_binary_value o col =
              .error (.missingColumn col.column_id o.handle) := by
            simp [get_binary_value, hdata, hpkb, hdv, hnn]
          have hcb : col_binary o col =
              .error (.missingColumn col.column_id o.handle) := by
            simp [col_binary, hpkb, hdata, hdv, hnn]
          have hiv : inflate_value ctx o col =
              .error (.missingColumn col.column_id o.handle) := by
            simp [inflate_value, hdata, hdv, hnn]
          have hgb : o.get_binary [i] =
              some (.error (.missingColumn col.column_id o.handle)) := by
            rw [get_binary_single o i col hcol, hgbv]
          refine ⟨?_, ?_, ?_⟩
          · intro l hl
            obtain ⟨hlen, hent⟩ := get_binary_cols_go_ok o o.cols l hl
            obtain ⟨li, hli, hcbok⟩ := hent i col hcol
            rw [hcb] at hcbok
            simp at hcbok
          · intro bs hbs
            rw [hgb] at hbs
            simp at hbs
          · intro e he
            rw [hgb] at he
            injection he with h2
            injection h2 with h3
            subst h3
            constructor
            · rw [inflate_single_npk ctx o i col hcol hpkb, hiv]
            · exact get_binary_cols_go_error o o.cols i col _ hcol hcb

/-- C1 counterexample to the claim as stated: a handle column whose id is
present in `data` makes `get_binary` return the stored bytes while
`get_binary_cols` synthesizes from the handle, and a stored value whose
bytes do not decode makes the typed path fail while both binary paths
succeed — the three paths are not value-equivalent for every origin row. -/
theorem c1_paths_disagree :
    (OriginCols.new 5 ⟨[(1, [9, 9, 9]), (2, [8])]⟩
        [⟨1, true, none, false⟩, ⟨2, false, none, false⟩]).get_binary [0, 1] =
      some (.ok [9, 9, 9, 8]) ∧
    (OriginCols.new 5 ⟨[(1, [9, 9, 9]), (2, [8])]⟩
        [⟨1, true, none, false⟩, ⟨2, false, none, false⟩]).get_binary_cols =
      .ok [[1, 0, 5], [8]] ∧
    (OriginCols.new 5 ⟨[(1, [9, 9, 9]), (2, [8])]⟩
        [⟨1, true, none, false⟩,
          ⟨2, false, none, false⟩]).inflate_cols_with_offsets () [0, 1] =
      some (.error .decodeError) ∧
    ([9, 9, 9] : List Nat) ≠ [1, 0, 5] := by
  exact ⟨rfl, rfl, rfl, by decide⟩

theorem c1_witness :
    (OriginCols.new 5 ⟨[(2, [1, 0, 9])]⟩ [⟨2, false, none, false⟩]).cols[0]? =
        some ⟨2, false, none, false⟩ ∧
    (∃ v d r, (OriginCols.new 5 ⟨[(2, [1, 0, 9])]⟩
          [⟨2, false, none, false⟩]).inflate_cols_with_offsets () [0] =
        some (.ok v) ∧ v[0]? = some d ∧ decodeDatum [1, 0, 9] = some (d, r)) := by
  refine ⟨rfl, ?_⟩
  have h := c1_resolution_equivalence () (OriginCols.new 5 ⟨[(2, [1, 0, 9])]⟩
      [⟨2, false, none, false⟩]) 0 ⟨2, false, none, false⟩ rfl
    (fun hpk => absurd hpk (by decide))
    (fun bs hbs => by
      injection hbs with h2
      subst h2
      exact ⟨.I64 9, [], rfl⟩)
    (fun bs hbs => by cases hbs)
  exact h.2.1 [1, 0, 9] rfl

example : decodeDatum (encodeDatum (.I64 (-7)) ++ [9]) = some (.I64 (-7), [9]) := by
  decide

example :
    (OriginCols.new 5 ⟨[(1, [9, 9, 9])]⟩
      [⟨1, true, none, false⟩]).get_binary [0] = some (.ok [9, 9, 9]) := by
  decide

example :
    (OriginCols.new 5 ⟨[(1, [9, 9, 9])]⟩
      [⟨1, true, none, false⟩]).get_binary_cols = .ok [[1, 0, 5]] := by
  decide

end Tikv
